import Mathlib

/-!
Verification of the codebreaker game core (src/main.rs): the hint scorer
`calc_hint`, the reference scorer `gnome_mastermind_checkscores` from the
test module, the game state machine (`Game::status`, the key-handling loop
of `Game::run`), and solution generation (`Game::new`).

Machine integers (`usize`) are modelled as `Nat`; the reference scorer's
`isize` values as `Int`.  Rust `Vec` indexing panics when out of range:
every function that indexes a vector with an index that could be out of
range returns an `Option`, with `none` standing for the panic.
-/

/-- `struct Hint { bulls: usize, cows: usize }`. -/
structure Hint where
  bulls : Nat
  cows : Nat
deriving DecidableEq, Repr

/-- One iteration of the first loop of `calc_hint`: on a matching pair
increment `bulls`, otherwise increment the per-color frequency tables
(`guess_counts[*guess] += 1; solution_counts[*solution] += 1`, which in Rust
panics when the color is out of range — modelled by `none`). -/
def calcHintStep (acc : Option (Nat × List Nat × List Nat)) (p : Nat × Nat) :
    Option (Nat × List Nat × List Nat) :=
  match acc with
  | none => none
  | some (bulls, gcounts, scounts) =>
    if p.1 = p.2 then some (bulls + 1, gcounts, scounts)
    else if p.1 < gcounts.length then
      if p.2 < scounts.length then
        some (bulls, gcounts.set p.1 (gcounts.getD p.1 0 + 1),
              scounts.set p.2 (scounts.getD p.2 0 + 1))
      else none
    else none

/-- `fn calc_hint(guess: &Guess, solution: &Guess, num_colors: usize) -> Hint`.
The loop over `guess.0.iter().zip(solution.0.iter())` accumulates `bulls` and
the two frequency tables, then `cows` folds `sum + a.min(b)` over the zipped
tables. -/
def calc_hint (guess solution : List Nat) (num_colors : Nat) : Option Hint :=
  match (guess.zip solution).foldl calcHintStep
      (some (0, List.replicate num_colors 0, List.replicate num_colors 0)) with
  | none => none
  | some (bulls, gcounts, scounts) =>
    some ⟨bulls, (gcounts.zip scounts).foldl (fun sum p => sum + min p.1 p.2) 0⟩

/-- The mismatching pairs of a guess/solution pair: those positions that do
not contribute to `bulls`. -/
def mismatches (guess solution : List Nat) : List (Nat × Nat) :=
  (guess.zip solution).filter fun p => ¬ p.1 = p.2

/-- Specification value of `bulls`: the number of positions where guess and
solution agree. -/
def bullsSpec (guess solution : List Nat) : Nat :=
  ((guess.zip solution).filter fun p => p.1 = p.2).length

/-- Specification value of `cows`: over colors `c < n`, sum the smaller of the
number of mismatched guess pegs of color `c` and the number of mismatched
solution pegs of color `c`. -/
def cowsSpec (guess solution : List Nat) (n : Nat) : Nat :=
  ∑ c ∈ Finset.range n,
    min (((mismatches guess solution).map Prod.fst).count c)
        (((mismatches guess solution).map Prod.snd).count c)

example : calc_hint [0, 1, 2, 3] [0, 1, 2, 3] 6 = some ⟨4, 0⟩ := by decide
example : calc_hint [0, 0, 1, 2] [1, 0, 2, 2] 6 = some ⟨2, 1⟩ := by decide
example : calc_hint [0, 1] [1, 0] 2 = some ⟨0, 2⟩ := by decide
example : calc_hint [5, 1] [1, 0] 2 = none := by decide
example : cowsSpec [0, 0, 1, 2] [1, 0, 2, 2] 6 = 1 := by decide
example : bullsSpec [0, 0, 1, 2] [1, 0, 2, 2] = 2 := by decide

lemma getD_set_self (l : List Nat) (i v : Nat) (h : i < l.length) :
    (l.set i v).getD i 0 = v := by
  rw [List.getD_eq_getElem _ _ (by simpa using h)]
  simp [List.getElem_set]

lemma getD_set_ne (l : List Nat) (i c v : Nat) (h : c ≠ i) :
    (l.set i v).getD c 0 = l.getD c 0 := by
  by_cases hc : c < l.length
  · rw [List.getD_eq_getElem _ _ (by simpa using hc), List.getD_eq_getElem _ _ hc]
    simp [List.getElem_set, Ne.symm h]
  · rw [List.getD_eq_default _ _ (by simpa using Nat.le_of_not_lt hc),
      List.getD_eq_default _ _ (Nat.le_of_not_lt hc)]

lemma getD_replicate_zero (n c : Nat) : (List.replicate n (0 : Nat)).getD c 0 = 0 := by
  by_cases h : c < n
  · rw [List.getD_eq_getElem _ _ (by simpa using h)]; simp
  · rw [List.getD_eq_default _ _ (by simpa using Nat.le_of_not_lt h)]

/-- The first loop of `calc_hint`, run from an arbitrary accumulator: it adds
the number of matching pairs to `bulls` and adds the per-color tallies of the
mismatching pairs to the two frequency tables. -/
lemma foldl_calcHintStep (pairs : List (Nat × Nat)) :
    ∀ (b0 : Nat) (gc0 sc0 : List Nat),
      (∀ p ∈ pairs, p.1 < gc0.length ∧ p.2 < sc0.length) →
      ∃ gc sc,
        pairs.foldl calcHintStep (some (b0, gc0, sc0)) =
          some (b0 + ((pairs.filter fun p => p.1 = p.2).length), gc, sc) ∧
        gc.length = gc0.length ∧ sc.length = sc0.length ∧
        (∀ c, gc.getD c 0 =
          gc0.getD c 0 + ((pairs.filter fun p => ¬ p.1 = p.2).map Prod.fst).count c) ∧
        (∀ c, sc.getD c 0 =
          sc0.getD c 0 + ((pairs.filter fun p => ¬ p.1 = p.2).map Prod.snd).count c) := by
  induction pairs with
  | nil =>
    intro b0 gc0 sc0 _
    exact ⟨gc0, sc0, by simp, rfl, rfl, by simp, by simp⟩
  | cons a rest ih =>
    intro b0 gc0 sc0 h
    have ha := h a (List.mem_cons_self a rest)
    by_cases hab : a.1 = a.2
    · have hstep : calcHintStep (some (b0, gc0, sc0)) a = some (b0 + 1, gc0, sc0) := by
        simp [calcHintStep, hab]
      obtain ⟨gc, sc, hfold, hlg, hls, hcg, hcs⟩ :=
        ih (b0 + 1) gc0 sc0 (fun p hp => h p (List.mem_cons_of_mem a hp))
      refine ⟨gc, sc, ?_, hlg, hls, ?_, ?_⟩
      · rw [List.foldl_cons, hstep, hfold]
        have : (List.filter (fun p => decide (p.1 = p.2)) (a :: rest)).length =
            (List.filter (fun p => decide (p.1 = p.2)) rest).length + 1 := by
          simp [List.filter_cons, hab]
        rw [this]; ring_nf
      · intro c
        rw [hcg c]
        simp [List.filter_cons, hab]
      · intro c
        rw [hcs c]
        simp [List.filter_cons, hab]
    · have hstep : calcHintStep (some (b0, gc0, sc0)) a =
          some (b0, gc0.set a.1 (gc0.getD a.1 0 + 1), sc0.set a.2 (sc0.getD a.2 0 + 1)) := by
        simp [calcHintStep, hab, ha.1, ha.2]
      obtain ⟨gc, sc, hfold, hlg, hls, hcg, hcs⟩ :=
        ih b0 (gc0.set a.1 (gc0.getD a.1 0 + 1)) (sc0.set a.2 (sc0.getD a.2 0 + 1))
          (fun p hp => by
            simpa using h p (List.mem_cons_of_mem a hp))
      refine ⟨gc, sc, ?_, by simpa using hlg, by simpa using hls, ?_, ?_⟩
      · rw [List.foldl_cons, hstep, hfold]
        have : (List.filter (fun p => decide (p.1 = p.2)) (a :: rest)).length =
            (List.filter (fun p => decide (p.1 = p.2)) rest).length := by
          simp [List.filter_cons, hab]
        rw [this]
      · intro c
        rw [hcg c]
        by_cases hc : c = a.1
        · subst hc
          rw [getD_set_self _ _ _ ha.1]
          simp [List.filter_cons, hab, List.count_cons]
          ring_nf
        · rw [getD_set_ne _ _ _ _ hc]
          simp [List.filter_cons, hab, List.count_cons, Ne.symm hc]
      · intro c
        rw [hcs c]
        by_cases hc : c = a.2
        · subst hc
          rw [getD_set_self _ _ _ ha.2]
          simp [List.filter_cons, hab, List.count_cons]
          ring_nf
        · rw [getD_set_ne _ _ _ _ hc]
          simp [List.filter_cons, hab, List.count_cons, Ne.symm hc]

/-- The second loop of `calc_hint` (`fold (Nat.min · ·)` over the zipped
frequency tables) sums the per-index minima. -/
lemma foldl_min_sum (gc : List Nat) :
    ∀ (sc : List Nat) (a : Nat),
      (gc.zip sc).foldl (fun sum p => sum + min p.1 p.2) a =
        a + ∑ i ∈ Finset.range (min gc.length sc.length),
          min (gc.getD i 0) (sc.getD i 0) := by
  induction gc with
  | nil => intro sc a; simp
  | cons x gc' ih =>
    intro sc a
    match sc with
    | [] => simp
    | y :: sc' =>
      have hmin : min (x :: gc').length (y :: sc').length =
          min gc'.length sc'.length + 1 := by
        simp [Nat.succ_min_succ]
      rw [List.zip_cons_cons, List.foldl_cons, ih sc' (a + min x y), hmin,
        Finset.sum_range_succ']
      simp [Nat.add_assoc, Nat.add_comm]

/-- Main characterization of `calc_hint`: when every zipped pair is within
the color range, it returns `some` of the specification bulls and cows. -/
lemma calc_hint_eq_spec (guess solution : List Nat) (n : Nat)
    (h : ∀ p ∈ guess.zip solution, p.1 < n ∧ p.2 < n) :
    calc_hint guess solution n =
      some ⟨bullsSpec guess solution, cowsSpec guess solution n⟩ := by
  obtain ⟨gc, sc, hfold, hlg, hls, hcg, hcs⟩ :=
    foldl_calcHintStep (guess.zip solution) 0
      (List.replicate n 0) (List.replicate n 0)
      (fun p hp => by simpa using h p hp)
  have hlg' : gc.length = n := by simpa using hlg
  have hls' : sc.length = n := by simpa using hls
  have hcows : (gc.zip sc).foldl (fun sum p => sum + min p.1 p.2) 0 =
      cowsSpec guess solution n := by
    rw [foldl_min_sum, hlg', hls', Nat.zero_add, Nat.min_self, cowsSpec]
    refine Finset.sum_congr rfl fun c _ => ?_
    rw [hcg c, hcs c]
    simp [getD_replicate_zero, mismatches]
  rw [calc_hint, hfold]
  dsimp only
  rw [hcows]
  simp [bullsSpec]

/-- Bridge between pair-list filters and position-indexed counting: filtering
the zip of two equal-length lists counts the positions whose entries satisfy
the predicate. -/
lemma filter_zip_length_eq_card (P : Nat → Nat → Prop) [inst : ∀ a b, Decidable (P a b)]
    (guess : List Nat) :
    ∀ solution : List Nat, guess.length = solution.length →
      ((guess.zip solution).filter fun p => P p.1 p.2).length =
        ((Finset.range guess.length).filter fun i =>
          P (guess.getD i 0) (solution.getD i 0)).card := by
  induction guess with
  | nil => intro sol _; simp
  | cons a g' ih =>
    intro sol hlen
    match sol with
    | [] => simp at hlen
    | b :: s' =>
      have hlen' : g'.length = s'.length := by simpa using hlen
      have h1 : ((Finset.range (a :: g').length).filter fun i =>
          P ((a :: g').getD i 0) ((b :: s').getD i 0)).card
          = ∑ i ∈ Finset.range (g'.length + 1),
              if P ((a :: g').getD i 0) ((b :: s').getD i 0) then 1 else 0 := by
        rw [List.length_cons, Finset.card_filter]
      rw [h1, Finset.sum_range_succ']
      simp only [List.getD_cons_succ, List.getD_cons_zero]
      rw [← Finset.card_filter, ← ih s' hlen', List.zip_cons_cons, List.filter_cons]
      by_cases hP : P a b
      · simp [hP]
      · simp [hP]

lemma count_map_fst_filter (l : List (Nat × Nat)) (c : Nat) :
    ((l.filter fun p => ¬ p.1 = p.2).map Prod.fst).count c
      = (l.filter fun p => ¬ p.1 = p.2 ∧ p.1 = c).length := by
  induction l with
  | nil => simp
  | cons a l ih =>
    simp only [List.filter_cons, decide_not] at ih ⊢
    by_cases hab : a.1 = a.2
    · simpa [hab] using ih
    · by_cases hc : a.1 = c
      · have hca2 : ¬ c = a.2 := by rw [← hc]; exact hab
        simp [hab, hc, hca2, List.count_cons] at ih ⊢
        omega
      · simp [hab, hc, List.count_cons] at ih ⊢
        omega

lemma count_map_snd_filter (l : List (Nat × Nat)) (c : Nat) :
    ((l.filter fun p => ¬ p.1 = p.2).map Prod.snd).count c
      = (l.filter fun p => ¬ p.1 = p.2 ∧ p.2 = c).length := by
  induction l with
  | nil => simp
  | cons a l ih =>
    simp only [List.filter_cons, decide_not] at ih ⊢
    by_cases hab : a.1 = a.2
    · simpa [hab] using ih
    · by_cases hc : a.2 = c
      · have hca1 : ¬ a.1 = c := fun h => hab (h.trans hc.symm)
        simp [hab, hc, hca1, List.count_cons] at ih ⊢
        omega
      · simp [hab, hc, List.count_cons] at ih ⊢
        omega

lemma mem_zip_lt {guess solution : List Nat} {n : Nat}
    (hg : ∀ x ∈ guess, x < n) (hs : ∀ x ∈ solution, x < n) :
    ∀ p ∈ guess.zip solution, p.1 < n ∧ p.2 < n := fun _ hp =>
  ⟨hg _ (List.of_mem_zip hp).1, hs _ (List.of_mem_zip hp).2⟩

/-- C1: for every guess and solution of equal length whose elements are all
below `num_colors`, `calc_hint` returns the `Hint` whose `bulls` is the number
of positions where the two sequences agree and whose `cows` is the sum, over
all colors `c`, of the smaller of the two per-color frequencies — where the
frequency tables count only the non-matching positions. -/
theorem calc_hint_bulls_cows_spec (guess solution : List Nat) (n : Nat)
    (hlen : guess.length = solution.length)
    (hg : ∀ x ∈ guess, x < n) (hs : ∀ x ∈ solution, x < n) :
    calc_hint guess solution n = some
      ⟨((Finset.range guess.length).filter fun i =>
          guess.getD i 0 = solution.getD i 0).card,
        ∑ c ∈ Finset.range n,
          min ((Finset.range guess.length).filter fun i =>
                ¬ guess.getD i 0 = solution.getD i 0 ∧ guess.getD i 0 = c).card
              ((Finset.range guess.length).filter fun i =>
                ¬ guess.getD i 0 = solution.getD i 0 ∧ solution.getD i 0 = c).card⟩ := by
  rw [calc_hint_eq_spec _ _ _ (mem_zip_lt hg hs)]
  have hbulls : bullsSpec guess solution =
      ((Finset.range guess.length).filter fun i =>
        guess.getD i 0 = solution.getD i 0).card := by
    rw [bullsSpec]
    exact filter_zip_length_eq_card (fun a b => a = b) guess solution hlen
  have hcows : cowsSpec guess solution n =
      ∑ c ∈ Finset.range n,
        min ((Finset.range guess.length).filter fun i =>
              ¬ guess.getD i 0 = solution.getD i 0 ∧ guess.getD i 0 = c).card
            ((Finset.range guess.length).filter fun i =>
              ¬ guess.getD i 0 = solution.getD i 0 ∧ solution.getD i 0 = c).card := by
    rw [cowsSpec]
    refine Finset.sum_congr rfl fun c _ => ?_
    rw [mismatches, count_map_fst_filter, count_map_snd_filter,
      filter_zip_length_eq_card (fun a b => ¬ a = b ∧ a = c) guess solution hlen,
      filter_zip_length_eq_card (fun a b => ¬ a = b ∧ b = c) guess solution hlen]
  rw [hbulls, hcows]

lemma sum_count_le (l : List Nat) (n : Nat) :
    ∑ c ∈ Finset.range n, l.count c ≤ l.length := by
  induction l with
  | nil => simp
  | cons a l ih =>
    have hcount : ∀ c, (a :: l).count c = l.count c + if c = a then 1 else 0 := by
      intro c
      by_cases hca : c = a
      · simp [List.count_cons, hca]
      · simp [List.count_cons, hca]
    calc ∑ c ∈ Finset.range n, (a :: l).count c
        = (∑ c ∈ Finset.range n, l.count c)
          + ∑ c ∈ Finset.range n, (if c = a then 1 else 0) := by
          simp only [hcount]; rw [Finset.sum_add_distrib]
      _ ≤ l.length + 1 := by
          gcongr
          rw [Finset.sum_ite_eq' (Finset.range n) a (fun _ => 1)]
          split <;> omega
      _ = (a :: l).length := by simp

lemma bullsSpec_add_mismatches (guess solution : List Nat) :
    bullsSpec guess solution + (mismatches guess solution).length
      = (guess.zip solution).length := by
  rw [bullsSpec, mismatches]
  have := List.length_eq_length_filter_add
    (l := guess.zip solution) (fun p => decide (p.1 = p.2))
  rw [this]
  congr 1
  simp [decide_not]

lemma cowsSpec_le (guess solution : List Nat) (n : Nat) :
    cowsSpec guess solution n ≤ (mismatches guess solution).length := by
  calc cowsSpec guess solution n
      ≤ ∑ c ∈ Finset.range n, ((mismatches guess solution).map Prod.fst).count c := by
        refine Finset.sum_le_sum fun c _ => ?_
        exact Nat.min_le_left _ _
    _ ≤ ((mismatches guess solution).map Prod.fst).length := sum_count_le _ n
    _ = (mismatches guess solution).length := List.length_map _ _

/-- C7: for every guess and solution of equal length with in-range colors,
the returned hint satisfies `bulls + cows ≤ holeCount` (the common length). -/
theorem calc_hint_bulls_add_cows_le (guess solution : List Nat) (n : Nat)
    (hlen : guess.length = solution.length)
    (hg : ∀ x ∈ guess, x < n) (hs : ∀ x ∈ solution, x < n) :
    ∃ h, calc_hint guess solution n = some h ∧ h.bulls + h.cows ≤ guess.length := by
  refine ⟨⟨bullsSpec guess solution, cowsSpec guess solution n⟩,
    calc_hint_eq_spec _ _ _ (mem_zip_lt hg hs), ?_⟩
  have h1 := cowsSpec_le guess solution n
  have h2 := bullsSpec_add_mismatches guess solution
  have h3 : (guess.zip solution).length ≤ guess.length := by
    rw [List.length_zip]; omega
  simp only []
  omega

lemma mismatches_map (guess solution : List Nat) (n : Nat) (g : Nat → Nat)
    (hg : ∀ x ∈ guess, x < n) (hs : ∀ x ∈ solution, x < n)
    (hinj : ∀ a < n, ∀ b < n, g a = g b → a = b) :
    mismatches (guess.map g) (solution.map g) = (mismatches guess solution).map (Prod.map g g) := by
  rw [mismatches, mismatches, List.zip_map, List.filter_map]
  congr 1
  refine List.filter_congr fun p hp => ?_
  obtain ⟨h1, h2⟩ := mem_zip_lt hg hs p hp
  simp only [Function.comp_apply, Prod.map_fst, Prod.map_snd, decide_eq_decide]
  constructor
  · intro hne hEq; exact hne (congrArg g hEq)
  · intro hne hEq; exact hne (hinj _ h1 _ h2 hEq)

lemma count_map_of_injOn (l : List Nat) (n : Nat) (g : Nat → Nat) (c : Nat)
    (hl : ∀ x ∈ l, x < n) (hc : c < n)
    (hinj : ∀ a < n, ∀ b < n, g a = g b → a = b) :
    (l.map g).count (g c) = l.count c := by
  rw [List.count_eq_countP, List.countP_map, List.count_eq_countP]
  refine List.countP_congr fun x hx => ?_
  have hxn := hl x hx
  simp only [Function.comp_apply, beq_iff_eq]
  constructor
  · intro h; exact hinj _ hxn _ hc h
  · intro h; exact congrArg g h

/-- C8: applying a bijective remapping of the color indices `[0, numColors)`
consistently to guess and solution leaves the computed hint unchanged. -/
theorem calc_hint_relabel (guess solution : List Nat) (n : Nat) (g : Nat → Nat)
    (hg : ∀ x ∈ guess, x < n) (hs : ∀ x ∈ solution, x < n)
    (hmaps : ∀ c < n, g c < n)
    (hinj : ∀ a < n, ∀ b < n, g a = g b → a = b) :
    calc_hint (guess.map g) (solution.map g) n = calc_hint guess solution n := by
  have hg' : ∀ x ∈ guess.map g, x < n := by
    intro x hx
    obtain ⟨y, hy, rfl⟩ := List.mem_map.mp hx
    exact hmaps _ (hg _ hy)
  have hs' : ∀ x ∈ solution.map g, x < n := by
    intro x hx
    obtain ⟨y, hy, rfl⟩ := List.mem_map.mp hx
    exact hmaps _ (hs _ hy)
  rw [calc_hint_eq_spec _ _ _ (mem_zip_lt hg hs),
    calc_hint_eq_spec _ _ _ (mem_zip_lt hg' hs')]
  have hbulls : bullsSpec (guess.map g) (solution.map g) = bullsSpec guess solution := by
    rw [bullsSpec, bullsSpec, List.zip_map, List.filter_map, List.length_map]
    congr 1
    refine List.filter_congr fun p hp => ?_
    obtain ⟨h1, h2⟩ := mem_zip_lt hg hs p hp
    simp only [Function.comp_apply, Prod.map_fst, Prod.map_snd, decide_eq_decide]
    exact ⟨fun hEq => hinj _ h1 _ h2 hEq, fun hEq => congrArg g hEq⟩
  have hmisf : ∀ x ∈ (mismatches guess solution).map Prod.fst, x < n := by
    intro x hx
    obtain ⟨p, hp, rfl⟩ := List.mem_map.mp hx
    exact (mem_zip_lt hg hs p (List.mem_of_mem_filter hp)).1
  have hmiss : ∀ x ∈ (mismatches guess solution).map Prod.snd, x < n := by
    intro x hx
    obtain ⟨p, hp, rfl⟩ := List.mem_map.mp hx
    exact (mem_zip_lt hg hs p (List.mem_of_mem_filter hp)).2
  have hcows : cowsSpec (guess.map g) (solution.map g) n = cowsSpec guess solution n := by
    rw [cowsSpec, cowsSpec]
    rw [mismatches_map guess solution n g hg hs hinj]
    have hfst : ((mismatches guess solution).map (Prod.map g g)).map Prod.fst =
        ((mismatches guess solution).map Prod.fst).map g := by
      simp [List.map_map, Function.comp_def]
    have hsnd : ((mismatches guess solution).map (Prod.map g g)).map Prod.snd =
        ((mismatches guess solution).map Prod.snd).map g := by
      simp [List.map_map, Function.comp_def]
    rw [hfst, hsnd]
    refine (Finset.sum_bij (fun c _ => g c) ?_ ?_ ?_ ?_).symm
    · intro a ha
      exact Finset.mem_range.mpr (hmaps _ (Finset.mem_range.mp ha))
    · intro a₁ ha₁ a₂ ha₂ hEq
      exact hinj _ (Finset.mem_range.mp ha₁) _ (Finset.mem_range.mp ha₂) hEq
    · intro b hb
      have := Finset.surj_on_of_inj_on_of_card_le (s := Finset.range n) (t := Finset.range n)
        (fun c _ => g c)
        (fun a ha => Finset.mem_range.mpr (hmaps _ (Finset.mem_range.mp ha)))
        (fun a₁ a₂ ha₁ ha₂ hEq =>
          hinj _ (Finset.mem_range.mp ha₁) _ (Finset.mem_range.mp ha₂) hEq)
        (le_refl _) b hb
      obtain ⟨a, ha, hab⟩ := this
      exact ⟨a, ha, hab.symm⟩
    · intro a ha
      have han := Finset.mem_range.mp ha
      rw [count_map_of_injOn _ n g a hmisf han hinj,
        count_map_of_injOn _ n g a hmiss han hinj]
  rw [hbulls, hcows]

lemma zip_eq_zip_take_min (guess : List Nat) :
    ∀ solution : List Nat,
      guess.zip solution =
        (guess.take (min guess.length solution.length)).zip
          (solution.take (min guess.length solution.length)) := by
  induction guess with
  | nil => intro solution; simp
  | cons a g' ih =>
    intro solution
    match solution with
    | [] => simp
    | b :: s' =>
      simp only [List.length_cons, Nat.succ_min_succ, List.take_succ_cons,
        List.zip_cons_cons]
      rw [← ih s']

/-- C10: `calc_hint` never reads past the shorter of the two sequences: it
pairs positions index-wise up to the shorter length, never panics when all
paired elements are in range, and returns the same hint as scoring the two
sequences truncated to the shorter length. -/
theorem calc_hint_unequal_lengths (guess solution : List Nat) (n : Nat)
    (h : ∀ p ∈ guess.zip solution, p.1 < n ∧ p.2 < n) :
    (∃ hnt, calc_hint guess solution n = some hnt) ∧
      calc_hint guess solution n =
        calc_hint (guess.take (min guess.length solution.length))
          (solution.take (min guess.length solution.length)) n := by
  constructor
  · exact ⟨_, calc_hint_eq_spec _ _ _ h⟩
  · rw [calc_hint, calc_hint, ← zip_eq_zip_take_min]

/-- `enum State { Playing, Won, Lost }`. -/
inductive State where
  | Playing
  | Won
  | Lost
deriving DecidableEq, Repr

/-- The fields of `struct Opt` that the game logic reads (`colors`, `guesses`
and `holes` are `NonZeroUsize` in the source; positivity is carried as a
hypothesis where a claim needs it). -/
structure Opt where
  colors : Nat
  guesses : Nat
  holes : Nat
  no_duplicate : Bool
deriving DecidableEq, Repr

/-- `struct Game`: the solution, the submitted guesses, their hints, and the
in-progress guess.  `Guess(Vec<usize>)` is modelled as `List Nat`. -/
structure Game where
  opt : Opt
  solution : List Nat
  guesses : List (List Nat)
  hints : List Hint
  current_guess : List Nat
deriving DecidableEq, Repr

/-- `fn status(&self) -> State`: `Won` when the last hint (if any) has
`bulls == holes`, else `Lost` when the number of submitted guesses has
reached the limit, else `Playing`. -/
def Game.status (g : Game) : State :=
  match g.hints.getLast? with
  | some h =>
    if h.bulls = g.opt.holes then State.Won
    else if g.opt.guesses ≤ g.guesses.length then State.Lost
    else State.Playing
  | none =>
    if g.opt.guesses ≤ g.guesses.length then State.Lost
    else State.Playing

/-- The key codes distinguished by the event loop of `Game::run`. -/
inductive KeyCode where
  | char (c : Char)
  | backspace
  | enter
  | esc
  | other
deriving DecidableEq, Repr

/-- A key event: its code plus whether the CONTROL modifier is held. -/
structure KeyEvent where
  ctrl : Bool
  code : KeyCode
deriving DecidableEq, Repr

/-- `fn parse_color_number(c: char) -> Option<usize>`: `c.to_digit(10)`
succeeds on `'0'..='9'`; a nonzero digit `d` yields `d - 1`. -/
def parse_color_number (c : Char) : Option Nat :=
  if '0' ≤ c ∧ c ≤ '9' then
    if c.toNat - '0'.toNat ≠ 0 then some (c.toNat - '0'.toNat - 1) else none
  else none

/-- The character carried by a `KeyCode::Char` pattern, if any. -/
def charOf : KeyCode → Option Char
  | KeyCode.char c => some c
  | _ => none

/-- The color-key arm of the event loop: look up the pressed digit and push
it onto the current guess when it denotes a valid color. -/
def Game.appendColor (g : Game) (c : Char) : Game :=
  match parse_color_number c with
  | some number =>
    if number < g.opt.colors then
      { g with current_guess := g.current_guess ++ [number] }
    else g
  | none => g

/-- The backspace arm: `self.current_guess.0.pop()`. -/
def Game.removeLastColor (g : Game) : Game :=
  { g with current_guess := g.current_guess.dropLast }

/-- The submit arm: score the current guess, move it into the history
together with its hint and clear the current guess; the returned flag records
whether the loop then returns (`status() != Playing`).  `none` models the
panic of `calc_hint` on an out-of-range color. -/
def Game.submit (g : Game) : Option (Game × Bool) :=
  match calc_hint g.current_guess g.solution g.opt.colors with
  | none => none
  | some hint =>
    let g' : Game :=
      { g with  guesses := g.guesses ++ [g.current_guess],
                hints := g.hints ++ [hint],
                current_guess := [] }
    some (g', decide (g'.status ≠ State.Playing))

/-- One iteration of the event loop of `Game::run` on a key event: the match
arms in source order — quit keys; a character key while the guess is short
(append a color); backspace / ctrl-z (undo); enter / space when the guess is
full (submit); otherwise ignore.  The flag is `true` when the loop stops
(quit, or terminal status after a submission). -/
def Game.step (g : Game) (k : KeyEvent) : Option (Game × Bool) :=
  if k.code = KeyCode.esc ∨ (k.ctrl = true ∧ k.code = KeyCode.char 'c')
      ∨ k.code = KeyCode.char 'q' then
    some (g, true)
  else
    match charOf k.code, decide (g.current_guess.length < g.opt.holes) with
    | some c, true => some (g.appendColor c, false)
    | _, _ =>
      if k.code = KeyCode.backspace ∨ (k.ctrl = true ∧ k.code = KeyCode.char 'z') then
        some (g.removeLastColor, false)
      else if (k.code = KeyCode.enter ∨ k.code = KeyCode.char ' ')
          ∧ g.current_guess.length = g.opt.holes then
        g.submit
      else some (g, false)

/-- Threading of the loop state: once the loop has stopped (flag `true`) no
further key event is read, and a panic (`none`) is final. -/
def runStep (s : Option (Game × Bool)) (k : KeyEvent) : Option (Game × Bool) :=
  match s with
  | none => none
  | some (g, true) => some (g, true)
  | some (g, false) => g.step k

/-- `Game::run` on a list of key events (the drawing calls are I/O-free of
game state and are omitted). -/
def Game.run (g : Game) (keys : List KeyEvent) : Option (Game × Bool) :=
  keys.foldl runStep (some (g, false))

example : parse_color_number '1' = some 0 := by decide
example : parse_color_number '0' = none := by decide
example : parse_color_number 'z' = none := by decide
example : parse_color_number '9' = some 8 := by decide

lemma zip_self_eq (l : List Nat) : ∀ p ∈ l.zip l, p.1 = p.2 := by
  induction l with
  | nil => simp
  | cons a l ih =>
    intro p hp
    rw [List.zip_cons_cons] at hp
    rcases List.mem_cons.mp hp with rfl | hp
    · rfl
    · exact ih _ hp

lemma bullsSpec_self (l : List Nat) : bullsSpec l l = l.length := by
  rw [bullsSpec, List.filter_eq_self.mpr (fun p hp => by simpa using zip_self_eq l p hp)]
  simp [List.length_zip]

lemma mismatches_self (l : List Nat) : mismatches l l = [] := by
  rw [mismatches, List.filter_eq_nil_iff]
  intro p hp
  simpa using zip_self_eq l p hp

lemma cowsSpec_self (l : List Nat) (n : Nat) : cowsSpec l l n = 0 := by
  simp [cowsSpec, mismatches_self]

/-- C3: `status()` is a pure function of the last hint and the guess count —
`Won` exactly when the last hint exists and has `bulls = holes` (this check
coming first), otherwise `Lost` exactly when the guess count has reached the
limit, otherwise `Playing`; and submitting a current guess equal to the
solution produces a hint with `bulls = holes` and status `Won`, regardless
of how many guesses have been used. -/
theorem status_pure_and_solution_wins (g : Game)
    (h1 : g.current_guess = g.solution)
    (h2 : g.solution.length = g.opt.holes)
    (h3 : ∀ x ∈ g.solution, x < g.opt.colors) :
    (∀ q : Game,
      (q.status = State.Won ↔
        ∃ h, q.hints.getLast? = some h ∧ h.bulls = q.opt.holes) ∧
      (q.status = State.Lost ↔
        (¬ ∃ h, q.hints.getLast? = some h ∧ h.bulls = q.opt.holes) ∧
          q.opt.guesses ≤ q.guesses.length) ∧
      (q.status = State.Playing ↔
        (¬ ∃ h, q.hints.getLast? = some h ∧ h.bulls = q.opt.holes) ∧
          q.guesses.length < q.opt.guesses)) ∧
    (∃ g' b, g.step ⟨false, KeyCode.enter⟩ = some (g', b) ∧
      g'.hints.getLast? = some ⟨g.opt.holes, 0⟩ ∧ g'.status = State.Won) := by
  constructor
  · intro q
    rcases hq : q.hints.getLast? with _ | h
    · by_cases hl : q.opt.guesses ≤ q.guesses.length
      · simp [Game.status, hq, hl]
      · simp [Game.status, hq, hl]; omega
    · by_cases hb : h.bulls = q.opt.holes
      · simp [Game.status, hq, hb]
      · by_cases hl : q.opt.guesses ≤ q.guesses.length
        · simp [Game.status, hq, hb, hl]
        · simp [Game.status, hq, hb, hl]; omega
  · have hcalc : calc_hint g.current_guess g.solution g.opt.colors =
        some ⟨g.opt.holes, 0⟩ := by
      rw [h1, calc_hint_eq_spec _ _ _ (mem_zip_lt h3 h3), bullsSpec_self,
        cowsSpec_self, h2]
    have hstep : g.step ⟨false, KeyCode.enter⟩ = g.submit := by
      rw [Game.step]
      simp [charOf, h1, h2]
    rw [hstep, Game.submit, hcalc]
    refine ⟨_, _, rfl, ?_, ?_⟩
    · simp
    · simp [Game.status]

lemma status_appendColor (g : Game) (c : Char) : (g.appendColor c).status = g.status := by
  rw [Game.appendColor]
  rcases parse_color_number c with _ | number
  · rfl
  · dsimp only
    split <;> rfl

lemma status_removeLastColor (g : Game) : (g.removeLastColor).status = g.status := rfl

/-- A step that leaves the loop running keeps the status at `Playing`. -/
lemma status_preserved_step (g g' : Game) (k : KeyEvent)
    (hp : g.status = State.Playing) (h : g.step k = some (g', false)) :
    g'.status = State.Playing := by
  rw [Game.step] at h
  split at h
  · simp at h
  · split at h
    · rename_i c _ _
      rw [Option.some_inj, Prod.mk.injEq] at h
      rw [← h.1, status_appendColor]
      exact hp
    · split at h
      · rw [Option.some_inj, Prod.mk.injEq] at h
        rw [← h.1, status_removeLastColor]
        exact hp
      · split at h
        · rw [Game.submit] at h
          rcases hc : calc_hint g.current_guess g.solution g.opt.colors with _ | hint
          · rw [hc] at h; exact absurd h (by simp)
          · rw [hc] at h
            rw [Option.some_inj, Prod.mk.injEq] at h
            have hd := h.2
            rw [← h.1]
            have := of_decide_eq_false hd
            by_contra hne
            exact this hne
        · rw [Option.some_inj, Prod.mk.injEq] at h
          rw [← h.1]
          exact hp

/-- The loop-state invariant: while the stop flag is unset, the status is
still `Playing`. -/
lemma run_invariant (ks : List KeyEvent) :
    ∀ s : Option (Game × Bool),
      (∀ g b, s = some (g, b) → b = false → g.status = State.Playing) →
      ∀ g b, ks.foldl runStep s = some (g, b) → b = false → g.status = State.Playing := by
  induction ks with
  | nil => intro s hs; simpa using hs
  | cons k ks ih =>
    intro s hs
    rw [List.foldl_cons]
    refine ih (runStep s k) ?_
    intro g b hstep hb
    match s, hs with
    | none, _ => simp [runStep] at hstep
    | some (g0, true), _ =>
      subst hb
      simp [runStep] at hstep
    | some (g0, false), hs =>
      have hg0 : g0.status = State.Playing := hs g0 false rfl rfl
      subst hb
      exact status_preserved_step g0 g k hg0 (by simpa [runStep] using hstep)

/-- Once the loop has stopped, further key events change nothing. -/
lemma run_frozen (ks : List KeyEvent) (g : Game) :
    ks.foldl runStep (some (g, true)) = some (g, true) := by
  induction ks with
  | nil => rfl
  | cons k ks ih => simpa [runStep] using ih

/-- C4: `Won` and `Lost` are terminal — as soon as a run of the event loop
reaches a non-`Playing` status, the loop has stopped, and processing any
further key events leaves the final state exactly as it was at that point. -/
theorem run_terminal_frozen (g0 g1 : Game) (b1 : Bool) (ks1 ks2 : List KeyEvent)
    (hp : g0.status = State.Playing)
    (h1 : g0.run ks1 = some (g1, b1))
    (ht : g1.status ≠ State.Playing) :
    g0.run (ks1 ++ ks2) = some (g1, b1) := by
  have hb1 : b1 = true := by
    by_contra hb
    have hb' : b1 = false := by revert hb; cases b1 <;> simp
    exact ht (run_invariant ks1 (some (g0, false))
      (by intro g b hsb _; rw [Option.some_inj, Prod.mk.injEq] at hsb
          rw [← hsb.1]; exact hp)
      g1 b1 h1 hb')
  subst hb1
  rw [Game.run, List.foldl_append]
  rw [Game.run] at h1
  rw [h1, run_frozen]

/-- C5: invalid command applications are silent no-ops that never error —
a color key while the guess is full or naming a color `≥ colors` leaves the
state untouched, backspace on an empty guess leaves it untouched, and
enter with an incomplete guess leaves it untouched; in each case the step
returns `some` (no panic) with the loop still running. -/
theorem invalid_commands_are_noops (g : Game) :
    (∀ c n, parse_color_number c = some n →
      (g.current_guess.length = g.opt.holes ∨ g.opt.colors ≤ n) →
      g.step ⟨false, KeyCode.char c⟩ = some (g, false)) ∧
    (g.current_guess = [] → g.step ⟨false, KeyCode.backspace⟩ = some (g, false)) ∧
    (g.current_guess.length < g.opt.holes →
      g.step ⟨false, KeyCode.enter⟩ = some (g, false)) := by
  refine ⟨?_, ?_, ?_⟩
  · intro c n hparse hbad
    have hrange : '0' ≤ c ∧ c ≤ '9' := by
      by_contra hcon
      rw [parse_color_number, if_neg hcon] at hparse
      cases hparse
    have hq : c ≠ 'q' := by
      intro hEq
      subst hEq
      revert hrange
      decide
    have hsp : c ≠ ' ' := by
      intro hEq
      subst hEq
      revert hrange
      decide
    rcases hbad with hfull | hbig
    · rw [Game.step]
      rw [if_neg (by simp [hq])]
      have hdec : decide (g.current_guess.length < g.opt.holes) = false := by
        simp [hfull]
      simp only [charOf, hdec]
      rw [if_neg (by simp), if_neg (by simp [hsp, hfull])]
    · rw [Game.step]
      rw [if_neg (by simp [hq])]
      by_cases hlen : g.current_guess.length < g.opt.holes
      · have hdec : decide (g.current_guess.length < g.opt.holes) = true := by
          simp [hlen]
        simp only [charOf, hdec]
        rw [Game.appendColor, hparse]
        dsimp only
        rw [if_neg (by omega)]
      · have hdec : decide (g.current_guess.length < g.opt.holes) = false := by
          simp [hlen]
        simp only [charOf, hdec]
        rw [if_neg (by simp), if_neg (by simp [hsp])]
  · intro hempty
    rw [Game.step]
    rw [if_neg (by simp)]
    simp only [charOf]
    rw [if_pos (by simp)]
    rw [Game.removeLastColor, hempty]
    cases g
    simp_all
  · intro hshort
    rw [Game.step]
    rw [if_neg (by simp)]
    simp only [charOf]
    rw [if_neg (by simp), if_neg (by simp; omega)]

/-- C6: with a full current guess, the submit step appends exactly that guess
to the history, appends its score against the solution as the one new hint at
the same index, resets the current guess to empty, and changes nothing else
(options, solution and all previously recorded guesses and hints are kept,
the histories growing only by the one appended element). -/
theorem submit_appends_guess_and_hint (g : Game)
    (hfull : g.current_guess.length = g.opt.holes)
    (hcur : ∀ x ∈ g.current_guess, x < g.opt.colors)
    (hsol : ∀ x ∈ g.solution, x < g.opt.colors) :
    ∃ hint b,
      calc_hint g.current_guess g.solution g.opt.colors = some hint ∧
      g.step ⟨false, KeyCode.enter⟩ = some
        ({ opt := g.opt, solution := g.solution,
           guesses := g.guesses ++ [g.current_guess],
           hints := g.hints ++ [hint],
           current_guess := [] }, b) ∧
      g.guesses.length + 1 = (g.guesses ++ [g.current_guess]).length ∧
      g.hints.length + 1 = (g.hints ++ [hint]).length := by
  have hcalc := calc_hint_eq_spec g.current_guess g.solution g.opt.colors
    (mem_zip_lt hcur hsol)
  have hstep : g.step ⟨false, KeyCode.enter⟩ = g.submit := by
    rw [Game.step]
    simp [charOf, hfull]
  refine ⟨⟨bullsSpec g.current_guess g.solution,
      cowsSpec g.current_guess g.solution g.opt.colors⟩,
    decide (({ opt := g.opt, solution := g.solution,
               guesses := g.guesses ++ [g.current_guess],
               hints := g.hints ++ [⟨bullsSpec g.current_guess g.solution,
                 cowsSpec g.current_guess g.solution g.opt.colors⟩],
               current_guess := [] } : Game).status ≠ State.Playing),
    hcalc, ?_, by simp, by simp⟩
  rw [hstep, Game.submit, hcalc]

/-- Modelled from the spec: `Game::new` draws the no-duplicate solution with
`(0..colors).choose_multiple(&mut rng, holes)` from the `rand` crate, which is
not part of this repository's sources; per the spec it samples `holes`
distinct values without replacement, in random order.  The random source is
modelled as a stream `picks` of draws, each reduced modulo the number of
remaining candidates to select the next element. -/
def choose_multiple (picks : List Nat) (pool : List Nat) : List Nat :=
  match picks, pool with
  | [], _ => []
  | _ :: _, [] => []
  | r :: rs, p =>
    let i := r % p.length
    p.getD i 0 :: choose_multiple rs (p.eraseIdx i)

/-- Modelled from the spec: the duplicate-allowing branch of `Game::new`
samples `holes` values independently and uniformly from `[0, colors)`
(`rng.sample_iter(Uniform::new(0, colors)).take(holes)`); each raw draw is
reduced modulo `colors`. -/
def generate_solution (opt : Opt) (picks : List Nat) : List Nat :=
  if opt.no_duplicate then choose_multiple picks (List.range opt.colors)
  else (picks.map fun r => r % opt.colors).take opt.holes

/-- `fn new(opt: &Opt) -> Game`: generate the solution and start with empty
histories and an empty current guess. -/
def Game.new (opt : Opt) (picks : List Nat) : Game :=
  { opt := opt, solution := generate_solution opt picks,
    guesses := [], hints := [], current_guess := [] }

lemma getD_mem (l : List Nat) (i : Nat) (h : i < l.length) : l.getD i 0 ∈ l := by
  rw [List.getD_eq_getElem _ _ h]
  exact List.getElem_mem h

lemma getD_not_mem_eraseIdx (l : List Nat) (i : Nat) (h : i < l.length)
    (hnd : l.Nodup) : l.getD i 0 ∉ l.eraseIdx i := by
  have hdecomp : l.take i ++ l[i] :: l.drop (i + 1) = l := by
    conv_rhs => rw [← List.take_append_drop (i + 1) l]
    rw [← List.take_concat_get' l i h, List.append_assoc, List.singleton_append]
  rw [List.eraseIdx_eq_take_drop_succ, List.getD_eq_getElem _ _ h]
  rw [← hdecomp] at hnd
  have h1 := List.Nodup.of_append_right hnd
  have h2 := (List.nodup_append.mp hnd).2.2
  intro hmem
  rcases List.mem_append.mp hmem with hm | hm
  · exact h2 hm (List.mem_cons_self _ _)
  · exact (List.nodup_cons.mp h1).1 hm

lemma choose_multiple_spec (picks : List Nat) :
    ∀ pool : List Nat, pool.Nodup → picks.length ≤ pool.length →
      (choose_multiple picks pool).length = picks.length ∧
      (∀ x ∈ choose_multiple picks pool, x ∈ pool) ∧
      (choose_multiple picks pool).Nodup := by
  induction picks with
  | nil => intro pool _ _; simp [choose_multiple]
  | cons r rs ih =>
    intro pool hnd hlen
    match pool with
    | [] => simp at hlen
    | q :: qs =>
      have hpos : 0 < (q :: qs).length := by simp
      have hi : r % (q :: qs).length < (q :: qs).length := Nat.mod_lt _ hpos
      have hlen' : rs.length ≤ ((q :: qs).eraseIdx (r % (q :: qs).length)).length := by
        rw [List.length_eraseIdx, if_pos hi]
        have := hlen
        simp only [List.length_cons] at this ⊢
        omega
      have hnd' : ((q :: qs).eraseIdx (r % (q :: qs).length)).Nodup :=
        hnd.sublist (List.eraseIdx_sublist _ _)
      obtain ⟨ihlen, ihmem, ihnd⟩ := ih _ hnd' hlen'
      have hunfold : choose_multiple (r :: rs) (q :: qs) =
          (q :: qs).getD (r % (q :: qs).length) 0
            :: choose_multiple rs ((q :: qs).eraseIdx (r % (q :: qs).length)) := rfl
      refine ⟨?_, ?_, ?_⟩
      · rw [hunfold]
        simpa using ihlen
      · rw [hunfold]
        intro x hx
        rcases List.mem_cons.mp hx with rfl | hx
        · exact getD_mem _ _ hi
        · exact (List.eraseIdx_sublist _ _).mem (ihmem x hx)
      · rw [hunfold]
        refine List.nodup_cons.mpr ⟨?_, ihnd⟩
        intro hmem
        exact getD_not_mem_eraseIdx _ _ hi hnd (ihmem _ hmem)

/-- C9: with duplicates forbidden and `holes ≤ colors`, every generated
solution (for every random stream) has exactly `holes` elements sampled
without replacement from `[0, colors)`: each element is a valid color index
and no color appears twice. -/
theorem new_solution_no_duplicate (opt : Opt) (picks : List Nat)
    (hdup : opt.no_duplicate = true)
    (hp : picks.length = opt.holes)
    (hc : opt.holes ≤ opt.colors) :
    (Game.new opt picks).solution.length = opt.holes ∧
    (∀ x ∈ (Game.new opt picks).solution, x < opt.colors) ∧
    (Game.new opt picks).solution.Nodup := by
  have hrange : (List.range opt.colors).Nodup := List.nodup_range _
  have hlen : picks.length ≤ (List.range opt.colors).length := by
    rw [List.length_range]; omega
  obtain ⟨h1, h2, h3⟩ := choose_multiple_spec picks (List.range opt.colors) hrange hlen
  have hsol : (Game.new opt picks).solution = choose_multiple picks (List.range opt.colors) := by
    rw [Game.new]
    simp [generate_solution, hdup]
  refine ⟨?_, ?_, ?_⟩
  · rw [hsol, h1, hp]
  · intro x hx
    rw [hsol] at hx
    exact List.mem_range.mp (h2 x hx)
  · rw [hsol]; exact h3

/-- One iteration of the first loop of `gnome_mastermind_checkscores`
(the test module's reference scorer): on `guess[i] == solution[i]` count a
bull and blank out the position with the sentinels `-1`/`-2`.  The claims
using this reference only concern equal-length inputs, on which every index
the loops touch is in range, so indexing is modelled with `getD`. -/
def gnomeBullStep (solution : List Int) (acc : Nat × List Int × List Int) (i : Nat) :
    Nat × List Int × List Int :=
  if acc.2.1.getD i 0 = solution.getD i 0 then
    (acc.1 + 1, acc.2.1.set i (-2), acc.2.2.set i (-1))
  else acc

/-- One iteration of the inner cows loop: on `guess[i] == tmp[j]` count a cow
and blank out both entries. -/
def gnomeCowInner (i : Nat) (acc : Nat × List Int × List Int) (j : Nat) :
    Nat × List Int × List Int :=
  if acc.2.1.getD i 0 = acc.2.2.getD j 0 then
    (acc.1 + 1, acc.2.1.set i (-2), acc.2.2.set j (-1))
  else acc

/-- `fn gnome_mastermind_checkscores(guess: &Guess, solution: &Guess) -> Hint`
from the test module: cast to `isize`, mark exact matches as bulls (first
loop), then greedily match remaining colors as cows (double loop). -/
def gnome_mastermind_checkscores (guess solution : List Nat) : Hint :=
  let g0 : List Int := guess.map fun x : Nat => (x : Int)
  let s0 : List Int := solution.map fun x : Nat => (x : Int)
  let m1 := (List.range g0.length).foldl (gnomeBullStep s0) (0, g0, s0)
  let m2 := (List.range g0.length).foldl
    (fun acc i => (List.range g0.length).foldl (gnomeCowInner i) acc)
    (0, m1.2.1, m1.2.2)
  ⟨m1.1, m2.1⟩

example : gnome_mastermind_checkscores [0, 1, 2, 3] [0, 1, 2, 3] = ⟨4, 0⟩ := by decide
example : gnome_mastermind_checkscores [0, 0, 1, 2] [1, 0, 2, 2] = ⟨2, 1⟩ := by decide
example : gnome_mastermind_checkscores [0, 1] [1, 0] = ⟨0, 2⟩ := by decide
example : gnome_mastermind_checkscores [1, 1, 1] [1, 1, 0] = ⟨2, 0⟩ := by decide
example : gnome_mastermind_checkscores [2, 2, 0] [0, 2, 2] = ⟨1, 2⟩ := by decide

lemma getD_set_self_int (l : List Int) (i : Nat) (v : Int) (h : i < l.length) :
    (l.set i v).getD i 0 = v := by
  rw [List.getD_eq_getElem _ _ (by simpa using h)]
  simp [List.getElem_set]

lemma getD_set_ne_int (l : List Int) (i c : Nat) (v : Int) (h : c ≠ i) :
    (l.set i v).getD c 0 = l.getD c 0 := by
  by_cases hc : c < l.length
  · rw [List.getD_eq_getElem _ _ (by simpa using hc), List.getD_eq_getElem _ _ hc]
    simp [List.getElem_set, Ne.symm h]
  · rw [List.getD_eq_default _ _ (by simpa using Nat.le_of_not_lt hc),
      List.getD_eq_default _ _ (Nat.le_of_not_lt hc)]

lemma take_succ_set (l : List Int) (i : Nat) (v : Int) (h : i < l.length) :
    (l.set i v).take (i + 1) = l.take i ++ [v] := by
  have h1 : l.set i v = l.take i ++ v :: l.drop (i + 1) := by
    rw [List.set_eq_take_append_cons_drop, if_pos h]
  rw [h1, List.take_append_eq_append_take]
  have h2 : (l.take i).length = i := by simp [Nat.le_of_lt h]
  rw [h2]
  rw [List.take_of_length_le (by omega)]
  have h4 : i + 1 - i = 1 := by omega
  rw [h4]
  simp

lemma drop_succ_set (l : List Int) (i : Nat) (v : Int) :
    (l.set i v).drop (i + 1) = l.drop (i + 1) := by
  rw [List.drop_set]
  simp

/-- Count of exact matches between two lists of integers. -/
def bullsInt (g s : List Int) : Nat :=
  ((g.zip s).filter fun p => p.1 = p.2).length

/-- The guess vector after the bulls loop: matched entries become `-2`. -/
def markG (g s : List Int) : List Int :=
  (g.zip s).map fun p => if p.1 = p.2 then -2 else p.1

/-- The `tmp` vector after the bulls loop: entries at positions where
`guess[i] == solution[i]` become `-1`, the rest keep their `tmp` value. -/
def markTmp : List Int → List Int → List Int → List Int
  | a :: ga, b :: sa, t :: ta => (if a = b then (-1 : Int) else t) :: markTmp ga sa ta
  | _, _, _ => []

/-- The bulls loop of the reference scorer, run from position `i0` to the end:
it counts the matches in the remaining suffix and blanks out the matched
positions of the two vectors. -/
lemma gnome_bull_loop (s0 : List Int) :
    ∀ (k i0 : Nat) (b : Nat) (g tmp : List Int),
      i0 + k = s0.length → g.length = s0.length → tmp.length = s0.length →
      (List.range' i0 k).foldl (gnomeBullStep s0) (b, g, tmp) =
        (b + bullsInt (g.drop i0) (s0.drop i0),
         g.take i0 ++ markG (g.drop i0) (s0.drop i0),
         tmp.take i0 ++ markTmp (g.drop i0) (s0.drop i0) (tmp.drop i0)) := by
  intro k
  induction k with
  | zero =>
    intro i0 b g tmp hk hg ht
    have hg0 : g.drop i0 = [] := List.drop_eq_nil_of_le (by omega)
    have hs0 : s0.drop i0 = [] := List.drop_eq_nil_of_le (by omega)
    have ht0 : tmp.drop i0 = [] := List.drop_eq_nil_of_le (by omega)
    have hgt : g.take i0 = g := List.take_of_length_le (by omega)
    have htt : tmp.take i0 = tmp := List.take_of_length_le (by omega)
    simp [hg0, hs0, ht0, hgt, htt, bullsInt, markG, markTmp]
  | succ k ih =>
    intro i0 b g tmp hk hg ht
    have hi0 : i0 < s0.length := by omega
    have hi0g : i0 < g.length := by omega
    have hi0t : i0 < tmp.length := by omega
    rw [List.range'_succ, List.foldl_cons]
    have hdg : g.drop i0 = g[i0] :: g.drop (i0 + 1) := List.drop_eq_getElem_cons hi0g
    have hds : s0.drop i0 = s0[i0] :: s0.drop (i0 + 1) := List.drop_eq_getElem_cons hi0
    have hdt : tmp.drop i0 = tmp[i0] :: tmp.drop (i0 + 1) := List.drop_eq_getElem_cons hi0t
    have hgetg : g.getD i0 0 = g[i0] := List.getD_eq_getElem _ _ hi0g
    have hgets : s0.getD i0 0 = s0[i0] := List.getD_eq_getElem _ _ hi0
    by_cases hmatch : g[i0] = s0[i0]
    · have hstep : gnomeBullStep s0 (b, g, tmp) i0 =
          (b + 1, g.set i0 (-2), tmp.set i0 (-1)) := by
        rw [gnomeBullStep]
        dsimp only
        rw [hgetg, hgets, if_pos hmatch]
      rw [hstep, ih (i0 + 1) (b + 1) (g.set i0 (-2)) (tmp.set i0 (-1))
        (by omega) (by simpa using hg) (by simpa using ht)]
      rw [drop_succ_set, drop_succ_set, take_succ_set _ _ _ hi0g, take_succ_set _ _ _ hi0t]
      have e1 : bullsInt (g.drop i0) (s0.drop i0) =
          bullsInt (g.drop (i0 + 1)) (s0.drop (i0 + 1)) + 1 := by
        rw [hdg, hds, bullsInt, bullsInt, List.zip_cons_cons, List.filter_cons]
        simp [hmatch]
      have e2 : markG (g.drop i0) (s0.drop i0) =
          -2 :: markG (g.drop (i0 + 1)) (s0.drop (i0 + 1)) := by
        rw [hdg, hds, markG, markG, List.zip_cons_cons, List.map_cons]
        simp [hmatch]
      have e3 : markTmp (g.drop i0) (s0.drop i0) (tmp.drop i0) =
          -1 :: markTmp (g.drop (i0 + 1)) (s0.drop (i0 + 1)) (tmp.drop (i0 + 1)) := by
        rw [hdg, hds, hdt, markTmp]
        simp [hmatch]
      rw [e1, e2, e3]
      refine congrArg₂ Prod.mk (by omega) (congrArg₂ Prod.mk ?_ ?_) <;>
        simp [List.append_assoc]
    · have hstep : gnomeBullStep s0 (b, g, tmp) i0 = (b, g, tmp) := by
        rw [gnomeBullStep]
        dsimp only
        rw [hgetg, hgets, if_neg hmatch]
      rw [hstep, ih (i0 + 1) b g tmp (by omega) hg ht]
      have e1 : bullsInt (g.drop i0) (s0.drop i0) =
          bullsInt (g.drop (i0 + 1)) (s0.drop (i0 + 1)) := by
        rw [hdg, hds, bullsInt, bullsInt, List.zip_cons_cons, List.filter_cons]
        simp [hmatch]
      have e2 : markG (g.drop i0) (s0.drop i0) =
          g[i0] :: markG (g.drop (i0 + 1)) (s0.drop (i0 + 1)) := by
        rw [hdg, hds, markG, markG, List.zip_cons_cons, List.map_cons]
        simp [hmatch]
      have e3 : markTmp (g.drop i0) (s0.drop i0) (tmp.drop i0) =
          tmp[i0] :: markTmp (g.drop (i0 + 1)) (s0.drop (i0 + 1)) (tmp.drop (i0 + 1)) := by
        rw [hdg, hds, hdt, markTmp]
        simp [hmatch]
      have htake_g : g.take (i0 + 1) = g.take i0 ++ [g[i0]] :=
        (List.take_concat_get' g i0 hi0g).symm
      have htake_t : tmp.take (i0 + 1) = tmp.take i0 ++ [tmp[i0]] :=
        (List.take_concat_get' tmp i0 hi0t).symm
      rw [e1, e2, e3, htake_g, htake_t]
      refine congrArg₂ Prod.mk rfl (congrArg₂ Prod.mk ?_ ?_) <;>
        rw [List.append_assoc, List.singleton_append]

/-- Replace the first occurrence of `v` in a list by `w`. -/
def replaceFirst : List Int → Int → Int → List Int
  | [], _, _ => []
  | x :: xs, v, w => if x = v then w :: xs else x :: replaceFirst xs v w

lemma length_replaceFirst (l : List Int) (v w : Int) :
    (replaceFirst l v w).length = l.length := by
  induction l with
  | nil => rfl
  | cons x xs ih =>
    rw [replaceFirst]
    split
    · simp
    · simpa using ih

lemma mem_replaceFirst (l : List Int) (v w x : Int) (h : x ∈ replaceFirst l v w) :
    x ∈ l ∨ x = w := by
  induction l with
  | nil => simp [replaceFirst] at h
  | cons y ys ih =>
    rw [replaceFirst] at h
    split at h
    · rcases List.mem_cons.mp h with rfl | h
      · exact Or.inr rfl
      · exact Or.inl (List.mem_cons_of_mem _ h)
    · rcases List.mem_cons.mp h with rfl | h
      · exact Or.inl (List.mem_cons_self _ _)
      · rcases ih h with h | h
        · exact Or.inl (List.mem_cons_of_mem _ h)
        · exact Or.inr h

lemma getD_ne_of_not_mem (tmp : List Int) (v : Int) (hv : v ∉ tmp) (hv0 : v ≠ 0) :
    ∀ j, tmp.getD j 0 ≠ v := by
  intro j
  by_cases hj : j < tmp.length
  · rw [List.getD_eq_getElem _ _ hj]
    intro hEq
    exact hv (hEq ▸ List.getElem_mem hj)
  · rw [List.getD_eq_default _ _ (Nat.le_of_not_lt hj)]
    exact fun hEq => hv0 hEq.symm

/-- If no entry of `tmp` (nor the out-of-range default) equals the probed
guess entry, the inner cows loop is the identity. -/
lemma gnome_cow_inner_no_match (i : Nat) (js : List Nat) :
    ∀ (cows : Nat) (g tmp : List Int),
      (∀ j, tmp.getD j 0 ≠ g.getD i 0) →
      js.foldl (gnomeCowInner i) (cows, g, tmp) = (cows, g, tmp) := by
  induction js with
  | nil => intro cows g tmp _; rfl
  | cons j js ih =>
    intro cows g tmp h
    rw [List.foldl_cons]
    have hstep : gnomeCowInner i (cows, g, tmp) j = (cows, g, tmp) := by
      rw [gnomeCowInner]
      dsimp only
      rw [if_neg (fun hEq => h j hEq.symm)]
    rw [hstep]
    exact ih cows g tmp h

/-- The inner cows loop, run over positions `j0..tmp.length`: if the probed
guess entry occurs in the remaining suffix of `tmp`, it scores one cow,
blanks the guess entry to `-2` and the first matching `tmp` entry to `-1`;
otherwise it changes nothing. -/
lemma gnome_cow_inner_loop (i : Nat) :
    ∀ (k j0 : Nat) (cows : Nat) (g tmp : List Int),
      j0 + k = tmp.length → i < g.length → (-2 : Int) ∉ tmp →
      (List.range' j0 k).foldl (gnomeCowInner i) (cows, g, tmp) =
        if g.getD i 0 ∈ tmp.drop j0 then
          (cows + 1, g.set i (-2),
            tmp.take j0 ++ replaceFirst (tmp.drop j0) (g.getD i 0) (-1))
        else (cows, g, tmp) := by
  intro k
  induction k with
  | zero =>
    intro j0 cows g tmp hk hi h2
    have h0 : tmp.drop j0 = [] := List.drop_eq_nil_of_le (by omega)
    simp [h0]
  | succ k ih =>
    intro j0 cows g tmp hk hi h2
    have hj0 : j0 < tmp.length := by omega
    have hdt : tmp.drop j0 = tmp[j0] :: tmp.drop (j0 + 1) := List.drop_eq_getElem_cons hj0
    have hgett : tmp.getD j0 0 = tmp[j0] := List.getD_eq_getElem _ _ hj0
    rw [List.range'_succ, List.foldl_cons]
    by_cases hhead : g.getD i 0 = tmp[j0]
    · have hstep : gnomeCowInner i (cows, g, tmp) j0 =
          (cows + 1, g.set i (-2), tmp.set j0 (-1)) := by
        rw [gnomeCowInner]
        dsimp only
        rw [hgett, if_pos hhead]
      rw [hstep]
      have hnomatch : ∀ j, (tmp.set j0 (-1)).getD j 0 ≠ (g.set i (-2)).getD i 0 := by
        have hgi : (g.set i (-2)).getD i 0 = -2 := getD_set_self_int _ _ _ hi
        rw [hgi]
        intro j
        by_cases hj : j = j0
        · subst hj
          rw [getD_set_self_int _ _ _ hj0]
          decide
        · rw [getD_set_ne_int _ _ _ _ hj]
          exact getD_ne_of_not_mem tmp (-2) h2 (by decide) j
      rw [gnome_cow_inner_no_match i _ _ _ _ hnomatch]
      rw [if_pos (by rw [hdt, hhead]; exact List.mem_cons_self _ _)]
      have hset : tmp.set j0 (-1) =
          tmp.take j0 ++ replaceFirst (tmp.drop j0) (g.getD i 0) (-1) := by
        rw [hdt, replaceFirst, if_pos hhead.symm]
        rw [List.set_eq_take_append_cons_drop, if_pos hj0]
      rw [hset]
    · have hstep : gnomeCowInner i (cows, g, tmp) j0 = (cows, g, tmp) := by
        rw [gnomeCowInner]
        dsimp only
        rw [hgett, if_neg hhead]
      rw [hstep, ih (j0 + 1) cows g tmp (by omega) hi h2]
      by_cases hmem : g.getD i 0 ∈ tmp.drop (j0 + 1)
      · rw [if_pos hmem, if_pos (by rw [hdt]; exact List.mem_cons_of_mem _ hmem)]
        have htake : tmp.take (j0 + 1) = tmp.take j0 ++ [tmp[j0]] :=
          (List.take_concat_get' tmp j0 hj0).symm
        have hrep : replaceFirst (tmp.drop j0) (g.getD i 0) (-1) =
            tmp[j0] :: replaceFirst (tmp.drop (j0 + 1)) (g.getD i 0) (-1) := by
          rw [hdt, replaceFirst, if_neg (fun hEq => hhead hEq.symm)]
        rw [htake, hrep, List.append_assoc, List.singleton_append]
      · rw [if_neg hmem, if_neg ?_]
        rw [hdt]
        intro hin
        rcases List.mem_cons.mp hin with hEq | hin
        · exact hhead hEq
        · exact hmem hin

/-- Value-level reading of the double cows loop: scan the marked guess values
in order; each value still present in `tmp` scores one cow and knocks out the
first matching `tmp` entry (replaced by the sentinel `-1`). -/
def greedy : List Int → List Int → Nat × List Int
  | [], tmp => (0, tmp)
  | v :: vs, tmp =>
    if v ∈ tmp then
      ((greedy vs (replaceFirst tmp v (-1))).1 + 1,
       (greedy vs (replaceFirst tmp v (-1))).2)
    else greedy vs tmp

lemma not_mem_replaceFirst_of (tmp : List Int) (v w x : Int)
    (hx : x ∉ tmp) (hw : x ≠ w) : x ∉ replaceFirst tmp v w := by
  intro h
  rcases mem_replaceFirst tmp v w x h with h | h
  · exact hx h
  · exact hw h

/-- The outer cows loop from position `i0`: it behaves as the greedy matching
of the remaining guess values against `tmp`. -/
lemma gnome_cow_outer_loop (L : Nat) :
    ∀ (k i0 : Nat) (cows : Nat) (g tmp : List Int),
      i0 + k = g.length → tmp.length = g.length → L = tmp.length →
      (-2 : Int) ∉ tmp →
      ∃ gF,
        (List.range' i0 k).foldl
            (fun acc i => (List.range L).foldl (gnomeCowInner i) acc)
            (cows, g, tmp) =
          (cows + (greedy (g.drop i0) tmp).1, gF, (greedy (g.drop i0) tmp).2) := by
  intro k
  induction k with
  | zero =>
    intro i0 cows g tmp hk ht hL h2
    have h0 : g.drop i0 = [] := List.drop_eq_nil_of_le (by omega)
    exact ⟨g, by simp [h0, greedy]⟩
  | succ k ih =>
    intro i0 cows g tmp hk ht hL h2
    have hi0 : i0 < g.length := by omega
    have hdg : g.drop i0 = g[i0] :: g.drop (i0 + 1) := List.drop_eq_getElem_cons hi0
    have hgetg : g.getD i0 0 = g[i0] := List.getD_eq_getElem _ _ hi0
    rw [List.range'_succ, List.foldl_cons]
    have hinner := gnome_cow_inner_loop i0 L 0 cows g tmp (by omega) hi0 h2
    rw [List.drop_zero, List.take_zero, List.nil_append, hgetg,
      ← List.range_eq_range'] at hinner
    by_cases hv : g[i0] ∈ tmp
    · rw [if_pos hv] at hinner
      obtain ⟨gF, hF⟩ := ih (i0 + 1) (cows + 1) (g.set i0 (-2))
        (replaceFirst tmp g[i0] (-1))
        (by simp; omega)
        (by rw [length_replaceFirst]; simp; omega)
        (by rw [length_replaceFirst]; omega)
        (not_mem_replaceFirst_of tmp _ _ _ h2 (by decide))
      rw [drop_succ_set] at hF
      have hgd : greedy (g.drop i0) tmp =
          ((greedy (g.drop (i0 + 1)) (replaceFirst tmp g[i0] (-1))).1 + 1,
           (greedy (g.drop (i0 + 1)) (replaceFirst tmp g[i0] (-1))).2) := by
        rw [hdg, greedy, if_pos hv]
      refine ⟨gF, ?_⟩
      show (List.range' (i0 + 1) k).foldl _
        ((List.range L).foldl (gnomeCowInner i0) (cows, g, tmp)) = _
      rw [hinner, hF, hgd]
      exact congrArg₂ Prod.mk (by omega) rfl
    · rw [if_neg hv] at hinner
      obtain ⟨gF, hF⟩ := ih (i0 + 1) cows g tmp (by omega) ht hL h2
      have hgd : greedy (g.drop i0) tmp = greedy (g.drop (i0 + 1)) tmp := by
        rw [hdg, greedy, if_neg hv]
      refine ⟨gF, ?_⟩
      show (List.range' (i0 + 1) k).foldl _
        ((List.range L).foldl (gnomeCowInner i0) (cows, g, tmp)) = _
      rw [hinner, hF, hgd]

lemma markTmp_nil_left (b t : List Int) : markTmp [] b t = [] := rfl

lemma markTmp_nil_mid (a : Int) (ga t : List Int) : markTmp (a :: ga) [] t = [] := rfl

lemma markTmp_nil_right (a b : Int) (ga sa : List Int) :
    markTmp (a :: ga) (b :: sa) [] = [] := rfl

lemma markTmp_cons (a b c : Int) (ga sa ta : List Int) :
    markTmp (a :: ga) (b :: sa) (c :: ta) =
      (if a = b then (-1 : Int) else c) :: markTmp ga sa ta := rfl

lemma length_markG (a b : List Int) : (markG a b).length = min a.length b.length := by
  simp [markG, List.length_zip]

lemma length_markTmp (a : List Int) :
    ∀ b t : List Int, a.length = b.length → b.length = t.length →
      (markTmp a b t).length = a.length := by
  induction a with
  | nil => intro b t h1 h2; rw [markTmp_nil_left]
  | cons x xs ih =>
    intro b t h1 h2
    match b, t with
    | [], _ => simp at h1
    | _ :: _, [] => simp at h2
    | y :: ys, z :: zs =>
      rw [markTmp_cons]
      simp only [List.length_cons]
      rw [ih ys zs (by simpa using h1) (by simpa using h2)]

lemma mem_markTmp (a : List Int) :
    ∀ (b t : List Int) (x : Int), x ∈ markTmp a b t → x = -1 ∨ x ∈ t := by
  induction a with
  | nil => intro b t x hx; rw [markTmp_nil_left] at hx; cases hx
  | cons v va ih =>
    intro b t x hx
    match b, t with
    | [], _ => rw [markTmp_nil_mid] at hx; cases hx
    | _ :: _, [] => rw [markTmp_nil_right] at hx; cases hx
    | w :: wb, u :: ut =>
      rw [markTmp_cons] at hx
      rcases List.mem_cons.mp hx with rfl | hx
      · split
        · exact Or.inl rfl
        · exact Or.inr (List.mem_cons_self _ _)
      · rcases ih wb ut x hx with h | h
        · exact Or.inl h
        · exact Or.inr (List.mem_cons_of_mem _ h)

/-- `gnome_mastermind_checkscores` computes the mark-the-bulls count and then
the greedy matching count of the marked vectors. -/
lemma gnome_eq_greedy (guess solution : List Nat)
    (hlen : guess.length = solution.length) :
    gnome_mastermind_checkscores guess solution =
      ⟨bullsInt (guess.map fun x : Nat => (x : Int)) (solution.map fun x : Nat => (x : Int)),
       (greedy
          (markG (guess.map fun x : Nat => (x : Int)) (solution.map fun x : Nat => (x : Int)))
          (markTmp (guess.map fun x : Nat => (x : Int)) (solution.map fun x : Nat => (x : Int))
            (solution.map fun x : Nat => (x : Int)))).1⟩ := by
  rw [gnome_mastermind_checkscores]
  have hg0 : (guess.map fun x : Nat => (x : Int)).length = guess.length := by simp
  have hs0 : (solution.map fun x : Nat => (x : Int)).length = solution.length := by simp
  have hlen0 : (guess.map fun x : Nat => (x : Int)).length
      = (solution.map fun x : Nat => (x : Int)).length := by rw [hg0, hs0, hlen]
  have hbulls := gnome_bull_loop (solution.map fun x : Nat => (x : Int))
    (guess.map fun x : Nat => (x : Int)).length 0 0
    (guess.map fun x : Nat => (x : Int)) (solution.map fun x : Nat => (x : Int))
    (by omega) hlen0 rfl
  rw [List.drop_zero, List.drop_zero, List.take_zero, List.take_zero,
    List.nil_append, List.nil_append, Nat.zero_add, ← List.range_eq_range'] at hbulls
  rw [hbulls]
  have hm2 : ∀ x ∈ markTmp (guess.map fun x : Nat => (x : Int))
      (solution.map fun x : Nat => (x : Int)) (solution.map fun x : Nat => (x : Int)),
      x ≠ (-2 : Int) := by
    intro x hx
    rcases mem_markTmp _ _ _ _ hx with rfl | hx
    · decide
    · obtain ⟨y, _, rfl⟩ := List.mem_map.mp hx
      omega
  have hcows := gnome_cow_outer_loop (guess.map fun x : Nat => (x : Int)).length
    (guess.map fun x : Nat => (x : Int)).length 0 0
    (markG (guess.map fun x : Nat => (x : Int)) (solution.map fun x : Nat => (x : Int)))
    (markTmp (guess.map fun x : Nat => (x : Int)) (solution.map fun x : Nat => (x : Int))
      (solution.map fun x : Nat => (x : Int)))
    (by rw [length_markG]; omega)
    (by rw [length_markTmp _ _ _ hlen0 rfl, length_markG]; omega)
    (by rw [length_markTmp _ _ _ hlen0 rfl])
    (fun hmem => hm2 _ hmem rfl)
  obtain ⟨gF, hF⟩ := hcows
  rw [List.drop_zero, ← List.range_eq_range'] at hF
  rw [hF, Nat.zero_add]

lemma coe_replaceFirst (tmp : List Int) (v w : Int) :
    ∀ _h : v ∈ tmp,
      ((replaceFirst tmp v w : List Int) : Multiset Int) =
        w ::ₘ ((tmp : Multiset Int).erase v) := by
  induction tmp with
  | nil => intro h; cases h
  | cons x xs ih =>
    intro h
    by_cases hx : x = v
    · subst hx
      rw [replaceFirst, if_pos rfl]
      rw [← Multiset.cons_coe, ← Multiset.cons_coe, Multiset.erase_cons_head]
    · rw [replaceFirst, if_neg hx]
      have hv : v ∈ xs := by
        rcases List.mem_cons.mp h with hEq | hmem
        · exact absurd hEq.symm hx
        · exact hmem
      rw [← Multiset.cons_coe, ← Multiset.cons_coe,
        Multiset.erase_cons_tail _ hx, ih hv,
        Multiset.cons_swap]

lemma inter_cons_right_of_not_mem (s t : Multiset Int) (a : Int) (h : a ∉ s) :
    s ∩ (a ::ₘ t) = s ∩ t := by
  ext b
  rw [Multiset.count_inter, Multiset.count_inter, Multiset.count_cons]
  by_cases hb : b = a
  · subst hb
    rw [Multiset.count_eq_zero_of_not_mem h]
    simp
  · simp [hb]

/-- The greedy matching count equals the cardinality of the multiset
intersection, as long as the sentinel `-1` used to knock out matched entries
does not itself occur among the scanned values. -/
lemma greedy_fst_card (vs : List Int) :
    ∀ tmp : List Int, (-1 : Int) ∉ vs →
      (greedy vs tmp).1 =
        Multiset.card ((vs : Multiset Int) ∩ (tmp : Multiset Int)) := by
  induction vs with
  | nil =>
    intro tmp _
    rw [greedy]
    rw [show ((([] : List Int) : Multiset Int)) = 0 from rfl, Multiset.zero_inter]
    rfl
  | cons v vs ih =>
    intro tmp hv1
    have hv1' : (-1 : Int) ∉ vs := fun h => hv1 (List.mem_cons_of_mem _ h)
    have hvne : v ≠ -1 := fun h => hv1 (h ▸ List.mem_cons_self _ _)
    rw [← Multiset.cons_coe]
    by_cases hv : v ∈ tmp
    · rw [greedy, if_pos hv]
      dsimp only
      rw [ih (replaceFirst tmp v (-1)) hv1']
      rw [coe_replaceFirst tmp v (-1) hv]
      rw [inter_cons_right_of_not_mem _ _ _ (by
        rw [Multiset.mem_coe]
        exact hv1')]
      rw [Multiset.cons_inter_of_pos _ (Multiset.mem_coe.mpr hv)]
      rw [Multiset.card_cons]
    · rw [greedy, if_neg hv]
      rw [ih tmp hv1']
      rw [Multiset.cons_inter_of_neg _ (fun hm => hv (Multiset.mem_coe.mp hm))]

lemma markG_eq_zipmap (guess solution : List Nat) :
    markG (guess.map fun x : Nat => (x : Int)) (solution.map fun x : Nat => (x : Int)) =
      (guess.zip solution).map fun p =>
        if ((p.1 : Int)) = ((p.2 : Int)) then (-2 : Int) else (p.1 : Int) := by
  rw [markG, List.zip_map, List.map_map]
  rfl

lemma markTmp_eq_zipmap (a : List Int) :
    ∀ b : List Int, markTmp a b b =
      (a.zip b).map fun p => if p.1 = p.2 then (-1 : Int) else p.2 := by
  induction a with
  | nil => intro b; rw [markTmp_nil_left]; simp
  | cons x xs ih =>
    intro b
    match b with
    | [] => rw [markTmp_nil_mid]; simp
    | y :: ys =>
      rw [markTmp_cons, List.zip_cons_cons, List.map_cons, ih ys]

lemma markTmp_map_eq_zipmap (guess solution : List Nat) :
    markTmp (guess.map fun x : Nat => (x : Int)) (solution.map fun x : Nat => (x : Int))
        (solution.map fun x : Nat => (x : Int)) =
      (guess.zip solution).map fun p =>
        if ((p.1 : Int)) = ((p.2 : Int)) then (-1 : Int) else (p.2 : Int) := by
  rw [markTmp_eq_zipmap, List.zip_map, List.map_map]
  rfl

lemma count_markG_list (l : List (Nat × Nat)) (c : Nat) :
    ((l.map fun p =>
        if ((p.1 : Int)) = ((p.2 : Int)) then (-2 : Int) else (p.1 : Int)).count ((c : Int)))
      = ((l.filter fun p => ¬ p.1 = p.2).map Prod.fst).count c := by
  induction l with
  | nil => simp
  | cons a l ih =>
    simp only [List.map_cons, List.filter_cons, decide_not, Nat.cast_inj] at ih ⊢
    by_cases hab : a.1 = a.2
    · rw [if_pos hab, if_neg (by simp [hab]), List.count_cons, ih]
      have hne : ¬ ((c : Int)) = (-2 : Int) := by omega
      simp [hne]
    · rw [if_neg hab, if_pos (by simp [hab]), List.count_cons, List.map_cons,
        List.count_cons, ih]
      by_cases hc : a.1 = c
      · have hceq : ((c : Int)) = ((a.1 : Int)) := by exact_mod_cast hc.symm
        simp [hc, hceq]
      · have hcne : ¬ ((c : Int)) = ((a.1 : Int)) := fun h => hc (by exact_mod_cast h.symm)
        simp [hc, hcne]

lemma count_markTmp_list (l : List (Nat × Nat)) (c : Nat) :
    ((l.map fun p =>
        if ((p.1 : Int)) = ((p.2 : Int)) then (-1 : Int) else (p.2 : Int)).count ((c : Int)))
      = ((l.filter fun p => ¬ p.1 = p.2).map Prod.snd).count c := by
  induction l with
  | nil => simp
  | cons a l ih =>
    simp only [List.map_cons, List.filter_cons, decide_not, Nat.cast_inj] at ih ⊢
    by_cases hab : a.1 = a.2
    · rw [if_pos hab, if_neg (by simp [hab]), List.count_cons, ih]
      have hne : ¬ ((c : Int)) = (-1 : Int) := by omega
      simp [hne]
    · rw [if_neg hab, if_pos (by simp [hab]), List.count_cons, List.map_cons,
        List.count_cons, ih]
      by_cases hc : a.2 = c
      · have hceq : ((c : Int)) = ((a.2 : Int)) := by exact_mod_cast hc.symm
        simp [hc, hceq]
      · have hcne : ¬ ((c : Int)) = ((a.2 : Int)) := fun h => hc (by exact_mod_cast h.symm)
        simp [hc, hcne]

lemma card_inter_eq_cowsSpec (guess solution : List Nat) (n : Nat)
    (hg : ∀ x ∈ guess, x < n) (hs : ∀ x ∈ solution, x < n) :
    Multiset.card
        ((((guess.zip solution).map fun p =>
            if ((p.1 : Int)) = ((p.2 : Int)) then (-2 : Int) else (p.1 : Int)) : Multiset Int) ∩
          (((guess.zip solution).map fun p =>
            if ((p.1 : Int)) = ((p.2 : Int)) then (-1 : Int) else (p.2 : Int)) : Multiset Int))
      = cowsSpec guess solution n := by
  set gl : List Int := (guess.zip solution).map fun p =>
    if ((p.1 : Int)) = ((p.2 : Int)) then (-2 : Int) else (p.1 : Int) with hgl
  set tl : List Int := (guess.zip solution).map fun p =>
    if ((p.1 : Int)) = ((p.2 : Int)) then (-1 : Int) else (p.2 : Int) with htl
  set m : Multiset Int := (gl : Multiset Int) ∩ (tl : Multiset Int) with hm
  have hcount : ∀ a : Int, m.count a = min (gl.count a) (tl.count a) := by
    intro a
    rw [hm, Multiset.count_inter, Multiset.coe_count, Multiset.coe_count]
  have hsupport : ∀ a ∈ m, ∃ c : Nat, c < n ∧ a = (c : Int) := by
    intro a ha
    rw [hm, Multiset.mem_inter, Multiset.mem_coe, Multiset.mem_coe] at ha
    obtain ⟨hag, hat⟩ := ha
    obtain ⟨p, hp, hpa⟩ := List.mem_map.mp hag
    obtain ⟨q, hq, hqa⟩ := List.mem_map.mp hat
    have hp1 : p.1 < n := (mem_zip_lt hg hs p hp).1
    by_cases hEq : ((p.1 : Int)) = ((p.2 : Int))
    · rw [if_pos hEq] at hpa
      subst hpa
      by_cases hEq2 : ((q.1 : Int)) = ((q.2 : Int))
      · rw [if_pos hEq2] at hqa
        omega
      · rw [if_neg hEq2] at hqa
        omega
    · rw [if_neg hEq] at hpa
      exact ⟨p.1, hp1, hpa.symm⟩
  have hcard : Multiset.card m = ∑ a ∈ m.toFinset, m.count a :=
    (Multiset.toFinset_sum_count_eq m).symm
  have hsub : m.toFinset ⊆ (Finset.range n).image (fun c : Nat => (c : Int)) := by
    intro a ha
    obtain ⟨c, hc, rfl⟩ := hsupport a (Multiset.mem_toFinset.mp ha)
    exact Finset.mem_image.mpr ⟨c, Finset.mem_range.mpr hc, rfl⟩
  have hext : ∑ a ∈ m.toFinset, m.count a =
      ∑ a ∈ (Finset.range n).image (fun c : Nat => (c : Int)), m.count a := by
    refine (Finset.sum_subset hsub ?_).symm.symm
    intro a _ hnot
    exact Multiset.count_eq_zero_of_not_mem (fun hmem => hnot (Multiset.mem_toFinset.mpr hmem))
  have himg : ∑ a ∈ (Finset.range n).image (fun c : Nat => (c : Int)), m.count a =
      ∑ c ∈ Finset.range n, m.count ((c : Int)) := by
    refine Finset.sum_image ?_
    intro a _ b _ h
    exact_mod_cast h
  rw [hcard, hext, himg]
  rw [cowsSpec]
  refine Finset.sum_congr rfl fun c _ => ?_
  rw [hcount ((c : Int)), hgl, htl, count_markG_list, count_markTmp_list, mismatches]

lemma bullsInt_map (guess solution : List Nat) :
    bullsInt (guess.map fun x : Nat => (x : Int)) (solution.map fun x : Nat => (x : Int))
      = bullsSpec guess solution := by
  rw [bullsInt, bullsSpec, List.zip_map, List.filter_map, List.length_map]
  congr 1
  refine List.filter_congr fun p _ => ?_
  simp [Nat.cast_inj]

lemma neg_one_not_mem_markG (guess solution : List Nat) :
    (-1 : Int) ∉ (guess.zip solution).map fun p =>
      if ((p.1 : Int)) = ((p.2 : Int)) then (-2 : Int) else (p.1 : Int) := by
  intro h
  obtain ⟨p, _, hpa⟩ := List.mem_map.mp h
  by_cases hEq : ((p.1 : Int)) = ((p.2 : Int))
  · rw [if_pos hEq] at hpa
    omega
  · rw [if_neg hEq] at hpa
    omega

/-- C2: on every equal-length guess/solution pair with in-range colors —
repeated colors and fully disjoint pairs included — the two-pass counting
scorer `calc_hint` returns exactly the hint computed by the classical
mark-then-greedily-match reference scorer from the test module. -/
theorem calc_hint_eq_gnome_reference (guess solution : List Nat) (n : Nat)
    (hlen : guess.length = solution.length)
    (hg : ∀ x ∈ guess, x < n) (hs : ∀ x ∈ solution, x < n) :
    calc_hint guess solution n = some (gnome_mastermind_checkscores guess solution) := by
  rw [calc_hint_eq_spec _ _ _ (mem_zip_lt hg hs), gnome_eq_greedy _ _ hlen]
  refine congrArg some ?_
  have hbulls := bullsInt_map guess solution
  have hcows : (greedy
      (markG (guess.map fun x : Nat => (x : Int)) (solution.map fun x : Nat => (x : Int)))
      (markTmp (guess.map fun x : Nat => (x : Int)) (solution.map fun x : Nat => (x : Int))
        (solution.map fun x : Nat => (x : Int)))).1 = cowsSpec guess solution n := by
    rw [markG_eq_zipmap, markTmp_map_eq_zipmap]
    rw [greedy_fst_card _ _ (neg_one_not_mem_markG guess solution)]
    exact card_inter_eq_cowsSpec guess solution n hg hs
  exact congrArg₂ Hint.mk hbulls.symm hcows.symm

/-- Concrete instance of the C1 theorem. -/
theorem calc_hint_bulls_cows_spec_witness : calc_hint [0, 1] [1, 1] 2 = some ⟨1, 0⟩ := by
  have h := calc_hint_bulls_cows_spec [0, 1] [1, 1] 2 rfl (by decide) (by decide)
  rw [h]
  decide

/-- Concrete instance of the C2 theorem. -/
theorem calc_hint_eq_gnome_reference_witness :
    calc_hint [0, 0, 1] [1, 0, 2] 3 = some (gnome_mastermind_checkscores [0, 0, 1] [1, 0, 2]) :=
  calc_hint_eq_gnome_reference [0, 0, 1] [1, 0, 2] 3 rfl (by decide) (by decide)

/-- Concrete instance of the C3 theorem. -/
theorem status_pure_and_solution_wins_witness :
    ∃ g' b,
      Game.step ⟨⟨2, 1, 1, false⟩, [1], [], [], [1]⟩ ⟨false, KeyCode.enter⟩ = some (g', b) ∧
      g'.hints.getLast? = some ⟨1, 0⟩ ∧ g'.status = State.Won :=
  (status_pure_and_solution_wins ⟨⟨2, 1, 1, false⟩, [1], [], [], [1]⟩
    rfl rfl (by decide)).2

/-- Concrete instance of the C4 theorem. -/
theorem run_terminal_frozen_witness :
    Game.run ⟨⟨2, 1, 1, false⟩, [1], [], [], [1]⟩
        ([⟨false, KeyCode.enter⟩] ++ [⟨false, KeyCode.char '1'⟩]) =
      some (⟨⟨2, 1, 1, false⟩, [1], [[1]], [⟨1, 0⟩], []⟩, true) :=
  run_terminal_frozen _ ⟨⟨2, 1, 1, false⟩, [1], [[1]], [⟨1, 0⟩], []⟩ true _ _
    (by decide) (by decide) (by decide)

/-- Concrete instance of the C5 theorem. -/
theorem invalid_commands_are_noops_witness :
    Game.step ⟨⟨2, 1, 1, false⟩, [1], [], [], []⟩ ⟨false, KeyCode.enter⟩ =
      some (⟨⟨2, 1, 1, false⟩, [1], [], [], []⟩, false) :=
  (invalid_commands_are_noops ⟨⟨2, 1, 1, false⟩, [1], [], [], []⟩).2.2 (by decide)

/-- Concrete instance of the C6 theorem. -/
theorem submit_appends_guess_and_hint_witness :
    ∃ hint b,
      calc_hint [0] [1] 2 = some hint ∧
      Game.step ⟨⟨2, 1, 1, false⟩, [1], [], [], [0]⟩ ⟨false, KeyCode.enter⟩ =
        some (⟨⟨2, 1, 1, false⟩, [1], [] ++ [[0]], [] ++ [hint], []⟩, b) ∧
      ([] : List (List Nat)).length + 1 = (([] : List (List Nat)) ++ [[0]]).length ∧
      ([] : List Hint).length + 1 = (([] : List Hint) ++ [hint]).length :=
  submit_appends_guess_and_hint ⟨⟨2, 1, 1, false⟩, [1], [], [], [0]⟩
    rfl (by decide) (by decide)

/-- Concrete instance of the C7 theorem. -/
theorem calc_hint_bulls_add_cows_le_witness :
    ∃ h, calc_hint [0, 1] [1, 1] 2 = some h ∧ h.bulls + h.cows ≤ 2 :=
  calc_hint_bulls_add_cows_le [0, 1] [1, 1] 2 rfl (by decide) (by decide)

/-- Concrete instance of the C8 theorem. -/
theorem calc_hint_relabel_witness :
    calc_hint ([0, 1, 1].map fun c => 1 - c) ([1, 1, 0].map fun c => 1 - c) 2 =
      calc_hint [0, 1, 1] [1, 1, 0] 2 :=
  calc_hint_relabel [0, 1, 1] [1, 1, 0] 2 (fun c => 1 - c)
    (by decide) (by decide)
    (by intro c hc; show 1 - c < 2; omega)
    (by intro a ha b hb h
        have h' : 1 - a = 1 - b := h
        omega)

/-- Concrete instance of the C9 theorem. -/
theorem new_solution_no_duplicate_witness :
    (Game.new ⟨3, 1, 2, true⟩ [5, 0]).solution.length = 2 ∧
    (∀ x ∈ (Game.new ⟨3, 1, 2, true⟩ [5, 0]).solution, x < 3) ∧
    (Game.new ⟨3, 1, 2, true⟩ [5, 0]).solution.Nodup :=
  new_solution_no_duplicate ⟨3, 1, 2, true⟩ [5, 0] rfl rfl (by decide)

/-- Concrete instance of the C10 theorem. -/
theorem calc_hint_unequal_lengths_witness :
    (∃ hnt, calc_hint [0, 1, 5] [1, 0] 2 = some hnt) ∧
      calc_hint [0, 1, 5] [1, 0] 2 =
        calc_hint ([0, 1, 5].take (min 3 2)) ([1, 0].take (min 3 2)) 2 :=
  calc_hint_unequal_lengths [0, 1, 5] [1, 0] 2 (by decide)
